import Mathlib

/-!
Shallow embedding of the core of `singron/wordle` (`src/lib.rs`): the
constraint-tracking state (`Game`, `CharInfo`, `BitField`), the feasibility
test `is_possible` with its vectorized green / no-bad paths, the pruning
filter `is_revealing`, feedback incorporation `Game.guess`, and the minimax
search `best_guess`.  Machine integers are modelled as `Nat`; the packed
word encoding and the SIMD byte comparisons are modelled byte by byte.
-/

/-- Byte `i` (little endian) of a natural number: `(x >> (8*i)) & 0xff`. -/
def byteAt (x i : Nat) : Nat := (x >>> (8 * i)) % 2 ^ 8

/-- Bits `0..n` of the `pcmpeqb`+`movemask` result comparing the byte strings
of `x` and `y`: bit `i` is set iff byte `i` of `x` equals byte `i` of `y`. -/
def eqMask (x y : Nat) : Nat → Nat
  | 0 => 0
  | n + 1 => eqMask x y n + (if byteAt x n = byteAt y n then 2 ^ n else 0)

/-- A 5 letter word. Each byte is an ascii lowercase letter a-z.
(`pub struct Word(pub [u8; 5])`). -/
structure Word where
  c0 : Nat
  c1 : Nat
  c2 : Nat
  c3 : Nat
  c4 : Nat
deriving DecidableEq

/-- Array indexing `w.0[i]` (the program only indexes at `i < 5`). -/
def Word.nth (w : Word) (i : Nat) : Nat :=
  match i with
  | 0 => w.c0
  | 1 => w.c1
  | 2 => w.c2
  | 3 => w.c3
  | _ => w.c4

/-- The data-model contract: each byte is an ascii lowercase letter. -/
def Word.valid (w : Word) : Prop := ∀ i < 5, 97 ≤ w.nth i ∧ w.nth i ≤ 122

instance (w : Word) : Decidable w.valid := by
  unfold Word.valid; infer_instance

/-- `w.0.contains(&c)`. -/
def Word.containsChar (w : Word) (c : Nat) : Bool :=
  (List.range 5).any fun i => w.nth i == c

/-- `Word::to_u64`: the word packed into a u64, one byte per letter
(no overflow is possible: five bytes occupy only the low 40 bits). -/
def Word.toU64 (w : Word) : Nat :=
  w.c0 + (w.c1 <<< 8) + (w.c2 <<< 16) + (w.c3 <<< 24) + (w.c4 <<< 32)

/-- `struct BitField(u8)`. -/
structure BitField where
  val : Nat
deriving DecidableEq

/-- `self.0 & (1 << idx) != 0`. -/
def BitField.get (b : BitField) (idx : Nat) : Bool := b.val &&& (1 <<< idx) != 0

/-- `self.0 |= 1 << idx`. -/
def BitField.set (b : BitField) (idx : Nat) : BitField := ⟨b.val ||| (1 <<< idx)⟩

/-- Per letter knowledge: `neg` bits 0-4 are the positions known NOT to have
the char, `neg` bit 7 marks the char known absent from the word; `pos` bits
0-4 are positions known to have the char, `pos` bit 7 marks it known present. -/
structure CharInfo where
  neg : BitField
  pos : BitField
deriving DecidableEq

def CharInfo.UNKNOWN : CharInfo := ⟨⟨0⟩, ⟨0⟩⟩

def CharInfo.is_in (c : CharInfo) : Bool := c.pos.get 7

def CharInfo.is_out (c : CharInfo) : Bool := c.neg.get 7

def CharInfo.set_in (c : CharInfo) : CharInfo := { c with pos := c.pos.set 7 }

def CharInfo.set_out (c : CharInfo) : CharInfo := { c with neg := c.neg.set 7 }

/-- `CharInfo::deduce`: if the char is in the word and it is not in 4 of the
5 positions, it must be in the remaining one. -/
def CharInfo.deduce (c : CharInfo) : CharInfo :=
  if c.is_in then
    if (List.range 5).countP (fun i => c.neg.get i) = 4 then
      let p1 := (List.range 5).foldl (fun p i => if c.neg.get i then p else p.set i) c.pos
      { c with pos := p1 }
    else c
  else c

/-- `pub struct Game`: the constraint state.  `positions` holds the known
(green) letter of each of the 5 positions; `position_mask` / `position_packed`
are the denormalized bit mask and packed bytes of those entries; `chars` has
one `CharInfo` per letter, indexed by `letter - 97` (the program only indexes
at `0..26`). -/
structure Game where
  positions : Nat → Option Nat
  position_mask : Nat
  position_packed : Nat
  chars : Nat → CharInfo
  guesses : Nat

/-- `Game::new`. -/
def Game.new : Game :=
  { positions := fun _ => none
    position_mask := 0
    position_packed := 0
    chars := fun _ => CharInfo.UNKNOWN
    guesses := 0 }

/-- `Game::is_possible_simd_green`: compare the packed word against
`position_packed` byte for byte (`pcmpeqb` + `movemask` on the 128-bit lanes,
whose upper 8 bytes are zero for both operands), keep the inequality bits
selected by `position_mask`, and require none. -/
def Game.is_possible_simd_green (g : Game) (w : Nat) : Bool :=
  let res := eqMask (w % 2 ^ 64) (g.position_packed % 2 ^ 64) 16
  decide ((65535 ^^^ res) &&& (g.position_mask % 2 ^ 16) = 0)

/-- `Game::is_possible_simd_no_bad`.  The gather loads 4 bytes per 32-bit
lane starting at `chars[w[j] - 97].neg`; both `_mm_testz_si128` masks
(`1 << 7` and `1 << j`, `j < 4`) examine only the low byte of each lane, so a
lane is modelled by that byte.  The 5th character is checked by itself. -/
def Game.is_possible_simd_no_bad (g : Game) (w : Nat) : Bool :=
  let negLane : Nat → Nat := fun j => (g.chars (byteAt w j - 97)).neg.val % 2 ^ 8
  if !((List.range 4).all fun j => negLane j &&& (1 <<< 7) == 0) then false
  else if !((List.range 4).all fun j => negLane j &&& (1 <<< j) == 0) then false
  else
    let c := byteAt w 4
    let info := g.chars (c - 97)
    !(info.is_out || info.neg.get 4)

/-- The scalar green check from `Game::is_possible` (debug path): every known
position letter must match. -/
def Game.green_scalar (g : Game) (w : Word) : Bool :=
  (List.range 5).all fun i =>
    match g.positions i with
    | some c => w.nth i == c
    | none => true

/-- The scalar no-bad check from `Game::is_possible` (debug path): no letter
of `w` may be known absent or excluded at its position. -/
def Game.no_bad_scalar (g : Game) (w : Word) : Bool :=
  (List.range 5).all fun i =>
    let info := g.chars (w.nth i - 97)
    !(info.is_out || info.neg.get i)

/-- The yellow check of `Game::is_possible`: every letter known present must
occur in `w`. -/
def Game.hasYellows (g : Game) (w : Word) : Bool :=
  (List.range 26).all fun idx =>
    !(g.chars idx).is_in || w.containsChar (97 + idx)

/-- `Game::is_possible` (release path; the debug path computes the scalar
checks and asserts them equal to the vectorized ones). -/
def Game.is_possible (g : Game) (w : Word) : Bool :=
  if !g.is_possible_simd_green w.toU64 then false
  else if !g.is_possible_simd_no_bad w.toU64 then false
  else g.hasYellows w

/-- The scalar reference for `Game::is_possible` (the debug path). -/
def Game.is_possible_scalar (g : Game) (w : Word) : Bool :=
  if !g.green_scalar w then false
  else if !g.no_bad_scalar w then false
  else g.hasYellows w

/-- `Game::is_revealing`: guessing this word could give new information. -/
def Game.is_revealing (g : Game) (w : Word) : Bool :=
  (List.range 5).any fun i =>
    let info := g.chars (w.nth i - 97)
    if info.is_out then false
    else if !info.is_in then true
    else !info.neg.get i && !info.pos.get i

/-- First half of the `for i in 0..5` loop body of `Game::guess`: on a green
match record the position (array, mask and packed byte) and set the char's
`in` flag and position bit; otherwise exclude the position for the char. -/
def Game.guessGreen (answer w : Word) (g : Game) (i : Nat) : Game :=
  if w.nth i = answer.nth i then
    { g with
      positions := Function.update g.positions i (some (w.nth i))
      position_mask := g.position_mask ||| (1 <<< i)
      position_packed := g.position_packed ||| ((w.nth i) <<< (i * 8))
      chars := Function.update g.chars (w.nth i - 97)
        { (g.chars (w.nth i - 97)).set_in with
            pos := ((g.chars (w.nth i - 97)).set_in).pos.set i } }
  else
    { g with
      chars := Function.update g.chars (w.nth i - 97)
        { g.chars (w.nth i - 97) with
            neg := (g.chars (w.nth i - 97)).neg.set i } }

/-- Second half of the loop body: mark the guessed char present or absent
according to `answer.0.contains(&c)`. -/
def Game.guessContains (answer w : Word) (g : Game) (i : Nat) : Game :=
  if answer.containsChar (w.nth i) then
    { g with chars := Function.update g.chars (w.nth i - 97) ((g.chars (w.nth i - 97)).set_in) }
  else
    { g with chars := Function.update g.chars (w.nth i - 97) ((g.chars (w.nth i - 97)).set_out) }

/-- The body of the `for i in 0..5` loop of `Game::guess` at position `i`. -/
def Game.guessStep (answer w : Word) (g : Game) (i : Nat) : Game :=
  Game.guessContains answer w (Game.guessGreen answer w g i) i

/-- `Game::guess`: incorporate the feedback of guessing `w` when the true
answer is `answer`, then re-run the elimination deduction for every letter of
`w`. -/
def Game.guess (g : Game) (answer w : Word) : Game :=
  (List.range 5).foldl
    (fun gg i =>
      { gg with chars := Function.update gg.chars (w.nth i - 97) ((gg.chars (w.nth i - 97)).deduce) })
    ((List.range 5).foldl (Game.guessStep answer w) { g with guesses := g.guesses + 1 })

/-- The inner closure of `best_guess`: the worst-case (over the still possible
answers `a`) number of words of `possible_words` remaining possible after
guessing `guess`. -/
def score (game : Game) (possible_words : List Word) (guess : Word) : Nat :=
  possible_words.foldl
    (fun max_answers a =>
      let game2 := game.guess a guess
      let answers := possible_words.countP fun na => game2.is_possible na
      if answers > max_answers then answers else max_answers) 0

/-- Rayon's `min_by_key` over the guess candidates: the reduction keeps the
earlier element on ties, so the fold below returns the first element of
minimal key (`None` for an empty list, where the program's `unwrap` panics). -/
def min_by_key {α : Type} (l : List α) (f : α → Nat) : Option α :=
  l.foldl
    (fun acc x =>
      match acc with
      | none => some x
      | some b => if f x < f b then some x else some b) none

/-- `best_guess`: pick a guess that minimizes the maximum number of possible
answers (minimax). -/
def best_guess (game : Game) (answer_words guess_words : List Word) : Option Word :=
  let possible_words := answer_words.filter fun w => game.is_possible w
  if possible_words.length = 1 then possible_words[0]?
  else min_by_key (guess_words.filter fun w => game.is_revealing w) (score game possible_words)

/-! ### Bit-level toolkit -/

theorem and_eq_zero_iff_bits {x y : Nat} :
    x &&& y = 0 ↔ ∀ i, ¬(x.testBit i = true ∧ y.testBit i = true) := by
  constructor
  · intro h i hi
    have := Nat.testBit_and x y i
    rw [h, Nat.zero_testBit, hi.1, hi.2] at this
    simp at this
  · intro h
    apply Nat.eq_of_testBit_eq
    intro i
    rw [Nat.testBit_and, Nat.zero_testBit]
    have := h i
    rcases hx : x.testBit i <;> rcases hy : y.testBit i <;> simp_all

theorem and_two_pow_eq_zero_iff {x k : Nat} :
    (x &&& (1 <<< k) = 0) ↔ x.testBit k = false := by
  rw [Nat.one_shiftLeft, and_eq_zero_iff_bits]
  constructor
  · intro h
    by_contra hx
    exact h k ⟨by simpa using hx, by simp [Nat.testBit_two_pow]⟩
  · intro h i hi
    rw [Nat.testBit_two_pow] at hi
    have : k = i := of_decide_eq_true hi.2
    subst this
    rw [h] at hi
    exact absurd hi.1 (by simp)

theorem BitField.get_eq_testBit (b : BitField) (i : Nat) :
    b.get i = b.val.testBit i := by
  unfold BitField.get
  rcases h : b.val.testBit i
  · simp [and_two_pow_eq_zero_iff.mpr h]
  · have : ¬(b.val &&& (1 <<< i) = 0) := fun hc => by
      rw [and_two_pow_eq_zero_iff] at hc
      rw [h] at hc
      exact absurd hc (by simp)
    simpa using this

theorem BitField.get_set (b : BitField) (i j : Nat) :
    (b.set i).get j = (b.get j || decide (i = j)) := by
  rw [BitField.get_eq_testBit, BitField.get_eq_testBit]
  show (b.val ||| 1 <<< i).testBit j = _
  rw [Nat.testBit_or, Nat.one_shiftLeft, Nat.testBit_two_pow]

theorem BitField.set_val_lt {b : BitField} (h : b.val < 2 ^ 8) {i : Nat} (hi : i < 8) :
    (b.set i).val < 2 ^ 8 := by
  show b.val ||| 1 <<< i < 2 ^ 8
  rw [Nat.one_shiftLeft]
  exact Nat.or_lt_two_pow h (Nat.pow_lt_pow_right (by omega) hi)

theorem byteAt_lt (x i : Nat) : byteAt x i < 2 ^ 8 :=
  Nat.mod_lt _ (by norm_num)

theorem testBit_byteAt (x i j : Nat) :
    (byteAt x i).testBit j = (decide (j < 8) && x.testBit (8 * i + j)) := by
  unfold byteAt
  rw [Nat.testBit_mod_two_pow, Nat.testBit_shiftRight]

theorem byteAt_or (x y i : Nat) : byteAt (x ||| y) i = byteAt x i ||| byteAt y i := by
  apply Nat.eq_of_testBit_eq
  intro j
  rw [Nat.testBit_or, testBit_byteAt, testBit_byteAt, testBit_byteAt, Nat.testBit_or]
  rcases h : decide (j < 8) <;> simp

theorem byteAt_mod_two_pow_64 (x i : Nat) :
    byteAt (x % 2 ^ 64) i = if i < 8 then byteAt x i else 0 := by
  split
  · next h =>
    apply Nat.eq_of_testBit_eq
    intro j
    rw [testBit_byteAt, testBit_byteAt, Nat.testBit_mod_two_pow]
    rcases hj : decide (j < 8)
    · simp
    · have : 8 * i + j < 64 := by
        have := of_decide_eq_true hj
        omega
      simp [this]
  · next h =>
    unfold byteAt
    rw [Nat.shiftRight_eq_div_pow]
    have hlt : x % 2 ^ 64 < 2 ^ (8 * i) := by
      calc x % 2 ^ 64 < 2 ^ 64 := Nat.mod_lt _ (by norm_num)
        _ ≤ 2 ^ (8 * i) := Nat.pow_le_pow_right (by norm_num) (by omega)
    rw [Nat.div_eq_of_lt hlt]
    rfl

theorem byteAt_shiftLeft {c : Nat} (hc : c < 2 ^ 8) (i j : Nat) :
    byteAt (c <<< (i * 8)) j = if j = i then c else 0 := by
  apply Nat.eq_of_testBit_eq
  intro m
  rw [testBit_byteAt, Nat.testBit_shiftLeft]
  split
  · next h =>
    subst h
    rcases hm : decide (m < 8)
    · have : ¬(c < 2 ^ m) → False := by
        intro hc2
        exact hc2 (lt_of_lt_of_le hc (Nat.pow_le_pow_right (by norm_num) (by simpa using hm)))
      simp only [hm, Bool.false_and]
      exact (Nat.testBit_lt_two_pow (by by_contra hc2; exact this fun h2 => hc2 h2)).symm
    · have hm8 := of_decide_eq_true hm
      have e1 : 8 * j + m ≥ j * 8 := by omega
      have e2 : 8 * j + m - j * 8 = m := by omega
      simp [hm, e1, e2]
  · next h =>
    rcases hm : decide (m < 8)
    · simp
    · have hm8 := of_decide_eq_true hm
      simp only [hm, Bool.true_and, Nat.zero_testBit]
      rcases Nat.lt_or_ge j i with hji | hji
      · have : ¬(8 * j + m ≥ i * 8) := by omega
        simp [this]
      · have e1 : 8 * j + m ≥ i * 8 := by omega
        have e2 : 8 * j + m - i * 8 ≥ 8 := by omega
        have e3 : c.testBit (8 * j + m - i * 8) = false :=
          Nat.testBit_lt_two_pow
            (lt_of_lt_of_le hc (Nat.pow_le_pow_right (by norm_num) e2))
        simp [hm, e1, e3]

theorem toU64_lt {w : Word} (hw : w.valid) : w.toU64 < 2 ^ 40 := by
  have h0 := (hw 0 (by omega)).2
  have h1 := (hw 1 (by omega)).2
  have h2 := (hw 2 (by omega)).2
  have h3 := (hw 3 (by omega)).2
  have h4 := (hw 4 (by omega)).2
  simp only [Word.nth] at h0 h1 h2 h3 h4
  unfold Word.toU64
  simp only [Nat.shiftLeft_eq]
  norm_num
  omega

theorem byteAt_toU64 {w : Word} (hw : w.valid) (j : Nat) :
    byteAt w.toU64 j = if j < 5 then w.nth j else 0 := by
  have h0 := hw 0 (by omega)
  have h1 := hw 1 (by omega)
  have h2 := hw 2 (by omega)
  have h3 := hw 3 (by omega)
  have h4 := hw 4 (by omega)
  simp only [Word.nth] at h0 h1 h2 h3 h4
  unfold byteAt Word.toU64
  simp only [Nat.shiftLeft_eq, Nat.shiftRight_eq_div_pow]
  split
  · next hj =>
    interval_cases j <;> simp only [Word.nth] <;> norm_num <;> omega
  · next hj =>
    have hlt : w.c0 + w.c1 * 2 ^ 8 + w.c2 * 2 ^ 16 + w.c3 * 2 ^ 24 + w.c4 * 2 ^ 32
        < 2 ^ (8 * j) := by
      have : (2 : Nat) ^ 40 ≤ 2 ^ (8 * j) := Nat.pow_le_pow_right (by norm_num) (by omega)
      norm_num at this ⊢
      omega
    rw [Nat.div_eq_of_lt hlt]
    rfl

theorem eqMask_lt (x y n : Nat) : eqMask x y n < 2 ^ n := by
  induction n with
  | zero => simp [eqMask]
  | succ n ih =>
    unfold eqMask
    have : (if byteAt x n = byteAt y n then 2 ^ n else 0) ≤ 2 ^ n := by split <;> omega
    have h2 : (2 : Nat) ^ (n + 1) = 2 ^ n + 2 ^ n := by ring
    omega

theorem testBit_eqMask (x y : Nat) {j n : Nat} (h : j < n) :
    (eqMask x y n).testBit j = decide (byteAt x j = byteAt y j) := by
  induction n with
  | zero => omega
  | succ n ih =>
    unfold eqMask
    rcases Nat.lt_or_ge j n with hj | hj
    · rw [← ih hj]
      split
      · next he =>
        have : eqMask x y n + 2 ^ n = 2 ^ n + eqMask x y n := by omega
        rw [this, Nat.testBit_two_pow_add_gt hj]
      · simp
    · have hjn : j = n := by omega
      subst hjn
      split
      · next he =>
        have : eqMask x y j + 2 ^ j = 2 ^ j * 1 + eqMask x y j := by omega
        rw [this, Nat.testBit_mul_pow_two_add 1 (eqMask_lt x y j) j]
        simp [he]
      · next he =>
        rw [Nat.add_zero, Nat.testBit_lt_two_pow (eqMask_lt x y j)]
        simp [he]

/-! ### Well-formedness of the denormalized green data and SIMD equivalence -/

/-- Coherence of the denormalized per-position data of a `Game`: the mask is
the 5-bit occupancy mask of `positions` and the packed bytes hold the
confirmed letters.  Every state the program builds satisfies this. -/
def Game.WF (g : Game) : Prop :=
  g.position_mask < 32 ∧
  (∀ i < 5, g.position_mask.testBit i = (g.positions i).isSome) ∧
  (∀ i < 5, ∀ c, g.positions i = some c → byteAt g.position_packed i = c)

theorem testBit_65535 (j : Nat) : Nat.testBit 65535 j = decide (j < 16) := by
  rw [show (65535 : Nat) = 2 ^ 16 - 1 by norm_num, Nat.testBit_two_pow_sub_one]

theorem simd_green_iff (g : Game) (w : Nat) :
    g.is_possible_simd_green w = true ↔
      ∀ j < 16, g.position_mask.testBit j = true →
        byteAt (w % 2 ^ 64) j = byteAt (g.position_packed % 2 ^ 64) j := by
  unfold Game.is_possible_simd_green
  rw [decide_eq_true_iff, and_eq_zero_iff_bits]
  constructor
  · intro h j hj hm
    have hx := h j
    rw [Nat.testBit_mod_two_pow, Nat.testBit_xor, testBit_eqMask _ _ hj,
      testBit_65535] at hx
    by_contra hne
    apply hx
    constructor
    · rw [decide_eq_true hj, decide_eq_false hne]
      rfl
    · rw [hm, decide_eq_true hj]
      rfl
  · intro h j hx
    rw [Nat.testBit_mod_two_pow, Nat.testBit_xor, testBit_65535] at hx
    obtain ⟨hx1, hx2⟩ := hx
    have hj : j < 16 := of_decide_eq_true (Bool.and_elim_left hx2)
    have hmj : g.position_mask.testBit j = true := Bool.and_elim_right hx2
    have heq := h j hj hmj
    rw [testBit_eqMask _ _ hj, decide_eq_true hj, decide_eq_true heq] at hx1
    exact absurd hx1 (by decide)

theorem green_scalar_iff (g : Game) (w : Word) :
    g.green_scalar w = true ↔ ∀ i < 5, ∀ c, g.positions i = some c → w.nth i = c := by
  unfold Game.green_scalar
  rw [List.all_eq_true]
  constructor
  · intro h i hi c hc
    have hx := h i (List.mem_range.mpr hi)
    rw [hc] at hx
    change (w.nth i == c) = true at hx
    exact beq_iff_eq.mp hx
  · intro h i hi
    rcases hp : g.positions i with _ | c
    · simp
    · exact beq_iff_eq.mpr (h i (List.mem_range.mp hi) c hp)

theorem simd_green_eq_green_scalar {g : Game} {w : Word} (hw : w.valid) (hWF : g.WF) :
    g.is_possible_simd_green w.toU64 = g.green_scalar w := by
  obtain ⟨hmask, hmp, hpb⟩ := hWF
  rw [Bool.eq_iff_iff, simd_green_iff, green_scalar_iff]
  constructor
  · intro h i hi c hc
    have hm : g.position_mask.testBit i = true := by
      rw [hmp i hi, hc]
      rfl
    have hx := h i (by omega) hm
    rw [byteAt_mod_two_pow_64, byteAt_mod_two_pow_64, if_pos (show i < 8 by omega),
      if_pos (show i < 8 by omega), byteAt_toU64 hw, if_pos hi] at hx
    rw [hx, hpb i hi c hc]
  · intro h j hj16 hm
    rcases Nat.lt_or_ge j 5 with hj5 | hj5
    · have hsome : (g.positions j).isSome := by
        rw [← hmp j hj5]
        exact hm
      rcases hp : g.positions j with _ | c
      · rw [hp] at hsome
        simp at hsome
      · rw [byteAt_mod_two_pow_64, byteAt_mod_two_pow_64, if_pos (show j < 8 by omega),
          if_pos (show j < 8 by omega), byteAt_toU64 hw, if_pos hj5, hpb j hj5 c hp]
        exact h j hj5 c hp
    · exfalso
      have h32 : (32 : Nat) ≤ 2 ^ j := by
        calc (32 : Nat) = 2 ^ 5 := by norm_num
          _ ≤ 2 ^ j := Nat.pow_le_pow_right (by norm_num) (by omega)
      have hf : g.position_mask.testBit j = false :=
        Nat.testBit_lt_two_pow (lt_of_lt_of_le hmask h32)
      rw [hm] at hf
      exact absurd hf (by simp)

theorem modByte_and_shift {v k : Nat} (hk : k < 8) :
    ((v % 2 ^ 8) &&& (1 <<< k) == 0) = !v.testBit k := by
  rw [Bool.eq_iff_iff, beq_iff_eq, and_two_pow_eq_zero_iff, Nat.testBit_mod_two_pow]
  simp [hk]

theorem if_chain (A B C : Bool) :
    (if !A then false else if !B then false else C) = (A && (B && C)) := by
  cases A <;> cases B <;> cases C <;> simp

theorem no_bad_scalar_iff (g : Game) (w : Word) :
    g.no_bad_scalar w = true ↔
      ∀ i < 5, (g.chars (w.nth i - 97)).neg.val.testBit 7 = false ∧
        (g.chars (w.nth i - 97)).neg.val.testBit i = false := by
  unfold Game.no_bad_scalar
  rw [List.all_eq_true]
  constructor
  · intro h i hi
    have hx := h i (List.mem_range.mpr hi)
    simp only [Bool.not_eq_true', Bool.or_eq_false_iff, CharInfo.is_out,
      BitField.get_eq_testBit] at hx
    exact hx
  · intro h i hi
    have hx := h i (List.mem_range.mp hi)
    simp only [Bool.not_eq_true', Bool.or_eq_false_iff, CharInfo.is_out,
      BitField.get_eq_testBit]
    exact hx

theorem simd_no_bad_eq_scalar {g : Game} {w : Word} (hw : w.valid) :
    g.is_possible_simd_no_bad w.toU64 = g.no_bad_scalar w := by
  have hb : ∀ j < 5, byteAt w.toU64 j = w.nth j := fun j hj => by
    rw [byteAt_toU64 hw, if_pos hj]
  rw [Bool.eq_iff_iff, no_bad_scalar_iff]
  unfold Game.is_possible_simd_no_bad
  rw [if_chain]
  simp only [Bool.and_eq_true, List.all_eq_true, List.mem_range]
  constructor
  · rintro ⟨hA, hB, hC⟩ i hi
    rcases Nat.lt_or_ge i 4 with h4 | h4
    · have ha := hA i h4
      have hbb := hB i h4
      rw [hb i (by omega), modByte_and_shift (by norm_num)] at ha
      rw [hb i (by omega), modByte_and_shift (by omega)] at hbb
      exact ⟨by simpa using ha, by simpa using hbb⟩
    · have hi4 : i = 4 := by omega
      subst hi4
      rw [hb 4 (by omega)] at hC
      simp only [Bool.not_eq_true', Bool.or_eq_false_iff, CharInfo.is_out,
        BitField.get_eq_testBit] at hC
      exact hC
  · intro h
    refine ⟨fun j hj => ?_, fun j hj => ?_, ?_⟩
    · rw [hb j (by omega), modByte_and_shift (by norm_num)]
      simpa using (h j (by omega)).1
    · rw [hb j (by omega), modByte_and_shift (by omega)]
      simpa using (h j (by omega)).2
    · rw [hb 4 (by omega)]
      simp only [Bool.not_eq_true', Bool.or_eq_false_iff, CharInfo.is_out,
        BitField.get_eq_testBit]
      exact h 4 (by omega)

theorem is_possible_eq_scalar {g : Game} {w : Word} (hw : w.valid) (hWF : g.WF) :
    g.is_possible w = g.is_possible_scalar w := by
  unfold Game.is_possible Game.is_possible_scalar
  rw [simd_green_eq_green_scalar hw hWF, simd_no_bad_eq_scalar hw]

theorem containsChar_iff (w : Word) (c : Nat) :
    w.containsChar c = true ↔ ∃ i < 5, w.nth i = c := by
  unfold Word.containsChar
  rw [List.any_eq_true]
  simp [List.mem_range]

theorem hasYellows_iff (g : Game) (w : Word) :
    g.hasYellows w = true ↔
      ∀ k < 26, (g.chars k).is_in = true → ∃ i < 5, w.nth i = 97 + k := by
  unfold Game.hasYellows
  rw [List.all_eq_true]
  constructor
  · intro h k hk hin
    have hx := h k (List.mem_range.mpr hk)
    rw [hin] at hx
    simp only [Bool.not_true, Bool.false_or] at hx
    exact (containsChar_iff _ _).mp hx
  · intro h k hkmem
    rcases hin : (g.chars k).is_in
    · simp [hin]
    · simp only [hin, Bool.not_true, Bool.false_or]
      exact (containsChar_iff _ _).mpr (h k (List.mem_range.mp hkmem) hin)

theorem is_possible_scalar_eq (g : Game) (w : Word) :
    g.is_possible_scalar w
      = (g.green_scalar w && (g.no_bad_scalar w && g.hasYellows w)) := by
  unfold Game.is_possible_scalar
  rw [if_chain]

theorem is_possible_eq_and (g : Game) (w : Word) :
    g.is_possible w
      = (g.is_possible_simd_green w.toU64
          && (g.is_possible_simd_no_bad w.toU64 && g.hasYellows w)) := by
  unfold Game.is_possible
  rw [if_chain]

/-! ### Sample words used by witnesses and counterexamples -/

def crane : Word := ⟨99, 114, 97, 110, 101⟩

def trace : Word := ⟨116, 114, 97, 99, 101⟩

def axxxx : Word := ⟨97, 120, 120, 120, 120⟩

def baaaa : Word := ⟨98, 97, 97, 97, 97⟩

def ayyyy : Word := ⟨97, 121, 121, 121, 121⟩

def azzzz : Word := ⟨97, 122, 122, 122, 122⟩

def brrrr : Word := ⟨98, 114, 114, 114, 114⟩

def bqqqq : Word := ⟨98, 113, 113, 113, 113⟩

def cabab : Word := ⟨99, 97, 98, 97, 98⟩

def zzzzz : Word := ⟨122, 122, 122, 122, 122⟩

def aaaaa : Word := ⟨97, 97, 97, 97, 97⟩

theorem new_WF : Game.new.WF := by
  refine ⟨by decide, fun i hi => by simp [Game.new], fun i hi c hc => ?_⟩
  simp [Game.new] at hc

/-- C2: for every well-formed state and every valid 5-lowercase-letter word
`w`, `is_possible` returns `true` iff (1) every confirmed position letter
matches `w`, (2) no letter of `w` is excluded at its position or known
absent, and (3) every letter known present occurs somewhere in `w`. -/
theorem claim_C2 (g : Game) (w : Word) (hw : w.valid) (hg : g.WF) :
    g.is_possible w = true ↔
      ((∀ i < 5, ∀ c, g.positions i = some c → w.nth i = c) ∧
       (∀ i < 5, (g.chars (w.nth i - 97)).neg.get i = false ∧
         (g.chars (w.nth i - 97)).is_out = false) ∧
       (∀ k < 26, (g.chars k).is_in = true → ∃ i < 5, w.nth i = 97 + k)) := by
  rw [is_possible_eq_scalar hw hg, is_possible_scalar_eq]
  simp only [Bool.and_eq_true]
  rw [green_scalar_iff, no_bad_scalar_iff, hasYellows_iff]
  constructor
  · rintro ⟨h1, h2, h3⟩
    refine ⟨h1, fun i hi => ?_, h3⟩
    have hx := h2 i hi
    rw [CharInfo.is_out, BitField.get_eq_testBit, BitField.get_eq_testBit]
    exact ⟨hx.2, hx.1⟩
  · rintro ⟨h1, h2, h3⟩
    refine ⟨h1, fun i hi => ?_, h3⟩
    have hx := h2 i hi
    rw [CharInfo.is_out, BitField.get_eq_testBit, BitField.get_eq_testBit] at hx
    exact ⟨hx.2, hx.1⟩

/-- Witness for C2 at the empty state and the word "crane". -/
theorem claim_C2_witness :
    Game.new.is_possible crane = true ↔
      ((∀ i < 5, ∀ c, Game.new.positions i = some c → crane.nth i = c) ∧
       (∀ i < 5, (Game.new.chars (crane.nth i - 97)).neg.get i = false ∧
         (Game.new.chars (crane.nth i - 97)).is_out = false) ∧
       (∀ k < 26, (Game.new.chars k).is_in = true →
         ∃ i < 5, crane.nth i = 97 + k)) :=
  claim_C2 Game.new crane (by decide) new_WF

/-- C3: for every well-formed state and valid word, the vectorized green and
no-bad checks agree with their scalar references, and hence `is_possible`
computes the same boolean on the debug (scalar) and release (SIMD) paths. -/
theorem claim_C3 (g : Game) (w : Word) (hw : w.valid) (hg : g.WF) :
    g.is_possible_simd_green w.toU64 = g.green_scalar w ∧
    g.is_possible_simd_no_bad w.toU64 = g.no_bad_scalar w ∧
    g.is_possible w = g.is_possible_scalar w :=
  ⟨simd_green_eq_green_scalar hw hg, simd_no_bad_eq_scalar hw,
    is_possible_eq_scalar hw hg⟩

/-- Witness for C3 at the empty state and the word "trace". -/
theorem claim_C3_witness :
    Game.new.is_possible_simd_green trace.toU64 = Game.new.green_scalar trace ∧
    Game.new.is_possible_simd_no_bad trace.toU64 = Game.new.no_bad_scalar trace ∧
    Game.new.is_possible trace = Game.new.is_possible_scalar trace :=
  claim_C3 Game.new trace (by decide) new_WF

/-! ### Monotonicity of feedback incorporation -/

theorem foldl_preserve {α β : Type} {P : α → Prop} {f : α → β → α} {l : List β}
    (h : ∀ x b, b ∈ l → P x → P (f x b)) {x : α} (hx : P x) : P (l.foldl f x) := by
  induction l generalizing x with
  | nil => exact hx
  | cons b t ih =>
    exact ih (fun y c hc hy => h y c (List.mem_cons_of_mem _ hc) hy)
      (h x b (List.mem_cons_self _ _) hx)

theorem foldl_condSet_get (l : List Nat) (cnd : Nat → Bool) (p0 : BitField) (j : Nat) :
    ((l.foldl (fun p i => if cnd i then p else p.set i) p0).get j)
      = (p0.get j || l.any fun i => !cnd i && i == j) := by
  induction l generalizing p0 with
  | nil => simp
  | cons x t ih =>
    rw [List.foldl_cons, List.any_cons]
    have hbe : (x == j) = decide (x = j) := by
      rw [Bool.eq_iff_iff, beq_iff_eq, decide_eq_true_eq]
    rcases hx : cnd x with _ | _
    · rw [if_neg (by simp), ih, BitField.get_set, hbe]
      simp only [Bool.not_false, Bool.true_and, Bool.or_assoc]
    · rw [if_pos rfl, ih]
      simp

theorem deduce_neg (c : CharInfo) : (c.deduce).neg = c.neg := by
  unfold CharInfo.deduce
  split
  · split <;> rfl
  · rfl

theorem deduce_pos_mono {c : CharInfo} {j : Nat} (h : c.pos.get j = true) :
    (c.deduce).pos.get j = true := by
  unfold CharInfo.deduce
  split
  · split
    · show ((List.range 5).foldl _ c.pos).get j = true
      rw [foldl_condSet_get, h]
      rfl
    · exact h
  · exact h

/-- State `g` refines state `s`: every constraint recorded in `s` is still
recorded (with the same green letters) in `g`. -/
def Game.Expands (s g : Game) : Prop :=
  (∀ j, s.position_mask.testBit j = true → g.position_mask.testBit j = true) ∧
  (∀ j < 5, s.position_mask.testBit j = true →
    byteAt g.position_packed j = byteAt s.position_packed j) ∧
  (∀ j, 5 ≤ j → byteAt g.position_packed j = byteAt s.position_packed j) ∧
  (∀ k j, (s.chars k).neg.get j = true → (g.chars k).neg.get j = true) ∧
  (∀ k j, (s.chars k).pos.get j = true → (g.chars k).pos.get j = true)

theorem get_set_mono {b : BitField} {i j : Nat} (h : b.get j = true) :
    (b.set i).get j = true := by
  rw [BitField.get_set, h]
  rfl

theorem update_neg_mono {f : Nat → CharInfo} {idx : Nat} {ci : CharInfo}
    (hn : ∀ j, (f idx).neg.get j = true → ci.neg.get j = true)
    {k j : Nat} (hk : (f k).neg.get j = true) :
    ((Function.update f idx ci) k).neg.get j = true := by
  rw [Function.update_apply]
  split
  · next he =>
    subst he
    exact hn j hk
  · exact hk

theorem update_pos_mono {f : Nat → CharInfo} {idx : Nat} {ci : CharInfo}
    (hp : ∀ j, (f idx).pos.get j = true → ci.pos.get j = true)
    {k j : Nat} (hk : (f k).pos.get j = true) :
    ((Function.update f idx ci) k).pos.get j = true := by
  rw [Function.update_apply]
  split
  · next he =>
    subst he
    exact hp j hk
  · exact hk

/-- Updating one char's record with a bitwise-larger record preserves
`Expands`. -/
theorem expands_chars_update {s g : Game} (hE : s.Expands g) {idx : Nat} {ci : CharInfo}
    (hn : ∀ j, (g.chars idx).neg.get j = true → ci.neg.get j = true)
    (hp : ∀ j, (g.chars idx).pos.get j = true → ci.pos.get j = true) :
    s.Expands { g with chars := Function.update g.chars idx ci } := by
  obtain ⟨h1, h2, h3, h4, h5⟩ := hE
  exact ⟨h1, h2, h3,
    fun k j hk => update_neg_mono hn (h4 k j hk),
    fun k j hk => update_pos_mono hp (h5 k j hk)⟩

/-- The first half of a guess step only adds constraints, provided the answer
agrees with `s` on `s`'s confirmed letters. -/
theorem expands_guessGreen {s : Game} {a w : Word} (ha : a.valid)
    (hcomp : ∀ i < 5, s.position_mask.testBit i = true →
      byteAt s.position_packed i = a.nth i)
    {g : Game} (hE : s.Expands g) {i : Nat} (hi : i < 5) :
    s.Expands (Game.guessGreen a w g i) := by
  unfold Game.guessGreen
  split
  · next hgreen =>
    have hlt : w.nth i < 2 ^ 8 := by
      have hb := (ha i hi).2
      norm_num
      omega
    have hE2 : s.Expands { g with
        positions := Function.update g.positions i (some (w.nth i)),
        position_mask := g.position_mask ||| (1 <<< i),
        position_packed := g.position_packed ||| ((w.nth i) <<< (i * 8)) } := by
      obtain ⟨hm, hp, hphi, hneg, hpos⟩ := hE
      refine ⟨?_, ?_, ?_, hneg, hpos⟩
      · intro j hj
        show (g.position_mask ||| 1 <<< i).testBit j = true
        rw [Nat.testBit_or, hm j hj]
        rfl
      · intro j hj hjm
        show byteAt (g.position_packed ||| w.nth i <<< (i * 8)) j = byteAt s.position_packed j
        rw [byteAt_or, byteAt_shiftLeft hlt]
        by_cases he : j = i
        · subst he
          rw [if_pos rfl, hp j hj hjm, hcomp j hj hjm, hgreen, Nat.or_self]
        · rw [if_neg he, Nat.or_zero]
          exact hp j hj hjm
      · intro j hj
        show byteAt (g.position_packed ||| w.nth i <<< (i * 8)) j = byteAt s.position_packed j
        rw [byteAt_or, byteAt_shiftLeft hlt, if_neg (by omega), Nat.or_zero]
        exact hphi j hj
    exact expands_chars_update hE2 (fun j hj => hj)
      (fun j hj => get_set_mono (get_set_mono hj))
  · exact expands_chars_update hE (fun j hj => get_set_mono hj) (fun j hj => hj)

theorem expands_guessContains {s : Game} {a w : Word} {g : Game} (hE : s.Expands g)
    (i : Nat) : s.Expands (Game.guessContains a w g i) := by
  unfold Game.guessContains
  split
  · exact expands_chars_update hE (fun j hj => hj) (fun j hj => get_set_mono hj)
  · exact expands_chars_update hE (fun j hj => get_set_mono hj) (fun j hj => hj)

theorem expands_guessStep {s : Game} {a w : Word} (ha : a.valid)
    (hcomp : ∀ i < 5, s.position_mask.testBit i = true →
      byteAt s.position_packed i = a.nth i)
    {g : Game} (hE : s.Expands g) {i : Nat} (hi : i < 5) :
    s.Expands (Game.guessStep a w g i) :=
  expands_guessContains (expands_guessGreen ha hcomp hE hi) i

theorem expands_guess {s : Game} {a w : Word} (ha : a.valid)
    (hcomp : ∀ i < 5, s.position_mask.testBit i = true →
      byteAt s.position_packed i = a.nth i) :
    s.Expands (s.guess a w) := by
  unfold Game.guess
  apply foldl_preserve
  · intro g i hmem hg
    exact expands_chars_update hg
      (fun j hj => by rw [deduce_neg]; exact hj)
      (fun j hj => deduce_pos_mono hj)
  · apply foldl_preserve
    · intro g i hmem hg
      exact expands_guessStep ha hcomp hg (List.mem_range.mp hmem)
    · exact ⟨fun _ h => h, fun _ _ _ => rfl, fun _ _ => rfl,
        fun _ _ h => h, fun _ _ h => h⟩

theorem simd_no_bad_iff (g : Game) (x : Nat) :
    g.is_possible_simd_no_bad x = true ↔
      ((∀ j < 4, (g.chars (byteAt x j - 97)).neg.val.testBit 7 = false) ∧
       (∀ j < 4, (g.chars (byteAt x j - 97)).neg.val.testBit j = false) ∧
       (g.chars (byteAt x 4 - 97)).neg.val.testBit 7 = false ∧
       (g.chars (byteAt x 4 - 97)).neg.val.testBit 4 = false) := by
  unfold Game.is_possible_simd_no_bad
  rw [if_chain]
  simp only [Bool.and_eq_true, List.all_eq_true, List.mem_range]
  constructor
  · rintro ⟨hA, hB, hC⟩
    refine ⟨fun j hj => ?_, fun j hj => ?_, ?_⟩
    · have h := hA j hj
      rw [modByte_and_shift (by norm_num)] at h
      simpa using h
    · have h := hB j hj
      rw [modByte_and_shift (by omega)] at h
      simpa using h
    · simp only [Bool.not_eq_true', Bool.or_eq_false_iff, CharInfo.is_out,
        BitField.get_eq_testBit] at hC
      exact hC
  · rintro ⟨h1, h2, h3, h4⟩
    refine ⟨fun j hj => ?_, fun j hj => ?_, ?_⟩
    · rw [modByte_and_shift (by norm_num)]
      simpa using h1 j hj
    · rw [modByte_and_shift (by omega)]
      simpa using h2 j hj
    · simp only [Bool.not_eq_true', Bool.or_eq_false_iff, CharInfo.is_out,
        BitField.get_eq_testBit]
      exact ⟨h3, h4⟩

/-- A word possible in a refined state was already possible before. -/
theorem is_possible_mono {s g : Game} (hE : s.Expands g) (w : Word)
    (hposs : g.is_possible w = true) : s.is_possible w = true := by
  obtain ⟨hm, hp, hphi, hneg, hpos⟩ := hE
  rw [is_possible_eq_and, Bool.and_eq_true, Bool.and_eq_true] at hposs ⊢
  obtain ⟨hgreen, hnobad, hyellow⟩ := hposs
  refine ⟨?_, ?_, ?_⟩
  · rw [simd_green_iff] at hgreen ⊢
    intro j hj hmj
    have hx := hgreen j hj (hm j hmj)
    rw [byteAt_mod_two_pow_64, byteAt_mod_two_pow_64] at hx ⊢
    by_cases hj8 : j < 8
    · simp only [if_pos hj8] at hx ⊢
      rw [hx]
      rcases Nat.lt_or_ge j 5 with hj5 | hj5
      · exact hp j hj5 hmj
      · exact hphi j hj5
    · simp only [if_neg hj8] at hx ⊢
  · rw [simd_no_bad_iff] at hnobad ⊢
    obtain ⟨h1, h2, h3, h4⟩ := hnobad
    have hcontra : ∀ k j, (g.chars k).neg.val.testBit j = false →
        (s.chars k).neg.val.testBit j = false := by
      intro k j hkj
      by_contra hs
      have hst : (s.chars k).neg.get j = true := by
        rw [BitField.get_eq_testBit]
        exact Bool.of_not_eq_false hs
      have := hneg k j hst
      rw [BitField.get_eq_testBit, hkj] at this
      exact absurd this (by simp)
    exact ⟨fun j hj => hcontra _ _ (h1 j hj), fun j hj => hcontra _ _ (h2 j hj),
      hcontra _ _ h3, hcontra _ _ h4⟩
  · rw [hasYellows_iff] at hyellow ⊢
    intro k hk hin
    apply hyellow k hk
    have : (s.chars k).pos.get 7 = true := hin
    exact hpos k 7 this

/-- Counterexample to C4 as stated: from the state `s1` reached by
incorporating guess "azzzz" against answer "ayyyy" (which confirms `a` at
position 0), incorporating guess "bqqqq" against the different answer "brrrr"
overwrites the packed byte of position 0 with `97 ||| 98 = 99`, and the word
"cabab" (`c = 99`), impossible in `s1`, becomes possible — so the possible
subset of the universe `[cabab]` grows instead of shrinking. -/
theorem claim_C4_cex :
    ¬([cabab].filter
        (fun w => (((Game.new.guess ayyyy azzzz).guess brrrr bqqqq)).is_possible w) ⊆
      [cabab].filter (fun w => (Game.new.guess ayyyy azzzz).is_possible w)) := by
  intro h
  have h1 : cabab ∈ [cabab].filter
      (fun w => (((Game.new.guess ayyyy azzzz).guess brrrr bqqqq)).is_possible w) := by
    decide
  have h2 := h h1
  revert h2
  decide

/-- C4 amended: monotonic narrowing holds whenever the incorporated answer is
a valid word that agrees with the state's already-confirmed letters (as is the
case for every answer still possible in the state, and for every incorporate
call the program performs): every word possible after `incorporate` was
already possible before, for the same universe. -/
theorem claim_C4_amended (s : Game) (a g : Word) (ha : a.valid)
    (hcomp : ∀ i < 5, s.position_mask.testBit i = true →
      byteAt s.position_packed i = a.nth i)
    (U : List Word) :
    U.filter (fun w => (s.guess a g).is_possible w) ⊆
      U.filter (fun w => s.is_possible w) := by
  intro w hw
  rw [List.mem_filter] at hw ⊢
  exact ⟨hw.1, is_possible_mono (expands_guess ha hcomp) w hw.2⟩

/-- Witness for the amended C4 at the empty state. -/
theorem claim_C4_witness :
    [crane, trace].filter (fun w => (Game.new.guess crane trace).is_possible w) ⊆
      [crane, trace].filter (fun w => Game.new.is_possible w) :=
  claim_C4_amended Game.new crane trace (by decide)
    (fun i hi h => by simp [Game.new] at h) [crane, trace]

/-! ### The invariant of states reached with one fixed answer -/

theorem get_set_eq (b : BitField) (i : Nat) : (b.set i).get i = true := by
  rw [BitField.get_set]
  simp

theorem get_set_ne (b : BitField) {i j : Nat} (h : i ≠ j) : (b.set i).get j = b.get j := by
  rw [BitField.get_set]
  simp [h]

theorem get_mk_zero (j : Nat) : (BitField.mk 0).get j = false := by
  rw [BitField.get_eq_testBit]
  exact Nat.zero_testBit j

theorem deduce_pos_get {c : CharInfo} {j : Nat} (h : (c.deduce).pos.get j = true) :
    c.pos.get j = true ∨
      (c.is_in = true ∧ (List.range 5).countP (fun i => c.neg.get i) = 4 ∧
        j < 5 ∧ c.neg.get j = false) := by
  unfold CharInfo.deduce at h
  by_cases h1 : c.is_in = true
  · rw [if_pos h1] at h
    by_cases h2 : (List.range 5).countP (fun i => c.neg.get i) = 4
    · rw [if_pos h2] at h
      have h3 : ((List.range 5).foldl
          (fun p i => if c.neg.get i then p else p.set i) c.pos).get j = true := h
      rw [foldl_condSet_get] at h3
      rcases Bool.or_eq_true_iff.mp h3 with hL | hR
      · exact Or.inl hL
      · right
        rw [List.any_eq_true] at hR
        obtain ⟨x, hx, hxx⟩ := hR
        rw [Bool.and_eq_true] at hxx
        have hxj : x = j := beq_iff_eq.mp hxx.2
        subst hxj
        refine ⟨h1, h2, List.mem_range.mp hx, ?_⟩
        simpa using hxx.1
    · rw [if_neg h2] at h
      exact Or.inl h
  · rw [if_neg h1] at h
    exact Or.inl h

theorem deduce_is_in (c : CharInfo) : (c.deduce).is_in = c.is_in := by
  unfold CharInfo.deduce
  by_cases h1 : c.is_in = true
  · rw [if_pos h1]
    by_cases h2 : (List.range 5).countP (fun i => c.neg.get i) = 4
    · rw [if_pos h2]
      show ((List.range 5).foldl
          (fun p i => if c.neg.get i then p else p.set i) c.pos).get 7 = c.pos.get 7
      rw [foldl_condSet_get]
      have hany : ((List.range 5).any fun i => !c.neg.get i && i == 7) = false := by
        rw [List.any_eq_false]
        intro x hx hpx
        rw [Bool.and_eq_true] at hpx
        have hx7 := beq_iff_eq.mp hpx.2
        have hx5 := List.mem_range.mp hx
        omega
      rw [hany, Bool.or_false]
    · rw [if_neg h2]
  · rw [if_neg h1]

/-- If a letter is already excluded from 4 of the 5 positions, any two of its
non-excluded positions below 5 coincide. -/
theorem unique_nonneg {c : CharInfo}
    (h : (List.range 5).countP (fun i => c.neg.get i) = 4)
    {i j : Nat} (hi : i < 5) (hj : j < 5) (hni : c.neg.get i = false)
    (hnj : c.neg.get j = false) : i = j := by
  have e : List.range 5 = [0, 1, 2, 3, 4] := rfl
  rw [e] at h
  rcases h0 : c.neg.get 0 <;> rcases h1 : c.neg.get 1 <;> rcases h2 : c.neg.get 2 <;>
    rcases h3 : c.neg.get 3 <;> rcases h4 : c.neg.get 4 <;>
    simp only [List.countP, List.countP.go, h0, h1, h2, h3, h4, cond_true,
      cond_false] at h <;>
    first
    | omega
    | (interval_cases i <;> interval_cases j <;> simp_all)

/-- The invariant maintained by any sequence of `guess` calls that all use the
same answer `a`, starting from the empty state. -/
structure GameInv (a : Word) (g : Game) : Prop where
  mask_lt : g.position_mask < 32
  mask_pos : ∀ i < 5, g.position_mask.testBit i = (g.positions i).isSome
  pos_ans : ∀ i < 5, ∀ c, g.positions i = some c → c = a.nth i
  packed_byte : ∀ i < 5,
    byteAt g.position_packed i = if (g.positions i).isSome then a.nth i else 0
  in_mem : ∀ k, (g.chars k).is_in = true → ∃ i < 5, a.nth i = 97 + k
  out_not_mem : ∀ k, (g.chars k).is_out = true → ∀ i < 5, a.nth i ≠ 97 + k
  ans_not_neg : ∀ i < 5, (g.chars (a.nth i - 97)).neg.get i = false
  posbit_ans : ∀ k, ∀ i < 5, (g.chars k).pos.get i = true → a.nth i = 97 + k
  pos_posbit : ∀ i < 5, ∀ c, g.positions i = some c → (g.chars (c - 97)).pos.get i = true

theorem inv_new (a : Word) : GameInv a Game.new := by
  refine ⟨by decide, ?_, ?_, ?_, ?_, ?_, ?_, ?_, ?_⟩
  · intro i hi
    simp [Game.new]
  · intro i hi c hc
    simp [Game.new] at hc
  · intro i hi
    simp [Game.new, byteAt]
  · intro k h
    rw [show Game.new.chars k = CharInfo.UNKNOWN from rfl] at h
    rw [show CharInfo.UNKNOWN.is_in = (BitField.mk 0).get 7 from rfl, get_mk_zero] at h
    exact absurd h (by simp)
  · intro k h
    rw [show Game.new.chars k = CharInfo.UNKNOWN from rfl] at h
    rw [show CharInfo.UNKNOWN.is_out = (BitField.mk 0).get 7 from rfl, get_mk_zero] at h
    exact absurd h (by simp)
  · intro i hi
    exact get_mk_zero i
  · intro k i hi h
    rw [show (Game.new.chars k).pos.get i = (BitField.mk 0).get i from rfl,
      get_mk_zero] at h
    exact absurd h (by simp)
  · intro i hi c hc
    simp [Game.new] at hc

theorem inv_guessGreen {a w : Word} {g : Game} (ha : a.valid) (hw : w.valid)
    {i : Nat} (hi : i < 5) (hInv : GameInv a g) :
    GameInv a (Game.guessGreen a w g i) := by
  obtain ⟨hml, hmp, hpa, hpb, him, hom, han, hpba, hppb⟩ := hInv
  unfold Game.guessGreen
  split
  · next hg =>
    have h97 : 97 ≤ a.nth i := (ha i hi).1
    have hlt : a.nth i < 2 ^ 8 := by
      have := (ha i hi).2
      norm_num
      omega
    have hwlt : w.nth i < 2 ^ 8 := by omega
    have hidx : w.nth i - 97 = a.nth i - 97 := by rw [hg]
    have hch : ∀ m, ((Function.update g.chars (w.nth i - 97)
        { (g.chars (w.nth i - 97)).set_in with
            pos := ((g.chars (w.nth i - 97)).set_in).pos.set i }) m).neg
          = (g.chars m).neg := by
      intro m
      rw [Function.update_apply]
      split
      · next he => subst he; rfl
      · rfl
    refine ⟨?_, ?_, ?_, ?_, ?_, ?_, ?_, ?_, ?_⟩
    · show g.position_mask ||| 1 <<< i < 32
      have h2 : (1 <<< i : Nat) < 2 ^ 5 := by
        rw [Nat.one_shiftLeft]
        exact Nat.pow_lt_pow_right (by norm_num) hi
      exact Nat.or_lt_two_pow hml h2
    · intro j hj
      show (g.position_mask ||| 1 <<< i).testBit j
        = (Function.update g.positions i (some (w.nth i)) j).isSome
      rw [Nat.testBit_or, Nat.one_shiftLeft, Nat.testBit_two_pow, Function.update_apply]
      by_cases he : j = i
      · subst he
        simp
      · have hd : decide (i = j) = false := decide_eq_false fun hc => he hc.symm
        rw [hd, Bool.or_false, if_neg he]
        exact hmp j hj
    · intro j hj c hc
      have hc2 : Function.update g.positions i (some (w.nth i)) j = some c := hc
      rw [Function.update_apply] at hc2
      by_cases he : j = i
      · rw [if_pos he] at hc2
        have h1 := Option.some.inj hc2
        subst he
        omega
      · rw [if_neg he] at hc2
        exact hpa j hj c hc2
    · intro j hj
      show byteAt (g.position_packed ||| w.nth i <<< (i * 8)) j
        = if (Function.update g.positions i (some (w.nth i)) j).isSome then a.nth j else 0
      rw [byteAt_or, byteAt_shiftLeft hwlt, Function.update_apply]
      by_cases he : j = i
      · subst he
        simp only [if_pos rfl]
        rcases hsome : g.positions j with _ | c
        · have hb := hpb j hj
          rw [hsome] at hb
          simp only [Option.isSome_none, Bool.false_eq_true, if_neg] at hb
          rw [hb]
          simp [hg]
        · have hb := hpb j hj
          rw [hsome] at hb
          simp only [Option.isSome_some, if_pos] at hb
          rw [hb, hg]
          simp
      · simp only [if_neg he, Nat.or_zero]
        exact hpb j hj
    · intro k hk
      have hk0 : ((Function.update g.chars (w.nth i - 97)
          { (g.chars (w.nth i - 97)).set_in with
              pos := ((g.chars (w.nth i - 97)).set_in).pos.set i }) k).pos.get 7 = true := hk
      rw [Function.update_apply] at hk0
      by_cases he : k = w.nth i - 97
      · refine ⟨i, hi, ?_⟩
        omega
      · rw [if_neg he] at hk0
        exact him k hk0
    · intro k hk j hj
      have hk2 : ((Function.update g.chars (w.nth i - 97)
          { (g.chars (w.nth i - 97)).set_in with
              pos := ((g.chars (w.nth i - 97)).set_in).pos.set i }) k).neg.get 7 = true := hk
      rw [hch k] at hk2
      exact hom k hk2 j hj
    · intro j hj
      show ((Function.update g.chars (w.nth i - 97)
          { (g.chars (w.nth i - 97)).set_in with
              pos := ((g.chars (w.nth i - 97)).set_in).pos.set i }) (a.nth j - 97)).neg.get j
        = false
      rw [hch (a.nth j - 97)]
      exact han j hj
    · intro k j hj hk
      have hk0 : ((Function.update g.chars (w.nth i - 97)
          { (g.chars (w.nth i - 97)).set_in with
              pos := ((g.chars (w.nth i - 97)).set_in).pos.set i }) k).pos.get j = true := hk
      rw [Function.update_apply] at hk0
      by_cases he : k = w.nth i - 97
      · rw [if_pos he] at hk0
        have hk2 : (((g.chars (w.nth i - 97)).pos.set 7).set i).get j = true := hk0
        rw [BitField.get_set, BitField.get_set] at hk2
        have h7j : decide (7 = j) = false := decide_eq_false (by omega)
        rw [h7j, Bool.or_false] at hk2
        rcases Bool.or_eq_true_iff.mp hk2 with hL | hR
        · have hx := hpba (w.nth i - 97) j hj hL
          rw [he]
          exact hx
        · have hij : i = j := of_decide_eq_true hR
          subst hij
          omega
      · rw [if_neg he] at hk0
        exact hpba k j hj hk0
    · intro j hj c hc
      have hc2 : Function.update g.positions i (some (w.nth i)) j = some c := hc
      rw [Function.update_apply] at hc2
      by_cases he : j = i
      · rw [if_pos he] at hc2
        have hcw : w.nth i = c := Option.some.inj hc2
        show ((Function.update g.chars (w.nth i - 97)
            { (g.chars (w.nth i - 97)).set_in with
                pos := ((g.chars (w.nth i - 97)).set_in).pos.set i }) (c - 97)).pos.get j
          = true
        have hce : c - 97 = w.nth i - 97 := by rw [hcw]
        rw [Function.update_apply, if_pos hce]
        subst he
        exact get_set_eq _ j
      · rw [if_neg he] at hc2
        have hold := hppb j hj c hc2
        show ((Function.update g.chars (w.nth i - 97)
            { (g.chars (w.nth i - 97)).set_in with
                pos := ((g.chars (w.nth i - 97)).set_in).pos.set i }) (c - 97)).pos.get j
          = true
        rw [Function.update_apply]
        by_cases he2 : c - 97 = w.nth i - 97
        · rw [if_pos he2]
          rw [he2] at hold
          exact get_set_mono (get_set_mono hold)
        · rw [if_neg he2]
          exact hold
  · next hg =>
    have hpos_eq : ∀ m, ((Function.update g.chars (w.nth i - 97)
        { g.chars (w.nth i - 97) with
            neg := (g.chars (w.nth i - 97)).neg.set i }) m).pos = (g.chars m).pos := by
      intro m
      rw [Function.update_apply]
      split
      · next he => subst he; rfl
      · rfl
    refine ⟨hml, hmp, hpa, hpb, ?_, ?_, ?_, ?_, ?_⟩
    · intro k hk
      have hk2 : ((Function.update g.chars (w.nth i - 97)
          { g.chars (w.nth i - 97) with
              neg := (g.chars (w.nth i - 97)).neg.set i }) k).pos.get 7 = true := hk
      rw [hpos_eq k] at hk2
      exact him k hk2
    · intro k hk j hj
      have hk2 : ((Function.update g.chars (w.nth i - 97)
          { g.chars (w.nth i - 97) with
              neg := (g.chars (w.nth i - 97)).neg.set i }) k).neg.get 7 = true := hk
      rw [Function.update_apply] at hk2
      by_cases he : k = w.nth i - 97
      · rw [if_pos he] at hk2
        have hk3 : ((g.chars (w.nth i - 97)).neg.set i).get 7 = true := hk2
        rw [get_set_ne _ (by omega)] at hk3
        exact hom k (by rw [he]; exact hk3) j hj
      · rw [if_neg he] at hk2
        exact hom k hk2 j hj
    · intro j hj
      show ((Function.update g.chars (w.nth i - 97)
          { g.chars (w.nth i - 97) with
              neg := (g.chars (w.nth i - 97)).neg.set i }) (a.nth j - 97)).neg.get j = false
      rw [Function.update_apply]
      by_cases he : a.nth j - 97 = w.nth i - 97
      · rw [if_pos he]
        by_cases hij : i = j
        · subst hij
          have hwv := (hw i hi).1
          have hav := (ha i hi).1
          exact absurd (show w.nth i = a.nth i by omega) hg
        · show ((g.chars (w.nth i - 97)).neg.set i).get j = false
          rw [get_set_ne _ hij, ← he]
          exact han j hj
      · rw [if_neg he]
        exact han j hj
    · intro k j hj hk
      have hk2 : ((Function.update g.chars (w.nth i - 97)
          { g.chars (w.nth i - 97) with
              neg := (g.chars (w.nth i - 97)).neg.set i }) k).pos.get j = true := hk
      rw [hpos_eq k] at hk2
      exact hpba k j hj hk2
    · intro j hj c hc
      have hold := hppb j hj c hc
      show ((Function.update g.chars (w.nth i - 97)
          { g.chars (w.nth i - 97) with
              neg := (g.chars (w.nth i - 97)).neg.set i }) (c - 97)).pos.get j = true
      rw [hpos_eq (c - 97)]
      exact hold

theorem inv_guessContains {a w : Word} {g : Game} (hw : w.valid)
    {i : Nat} (hi : i < 5) (hInv : GameInv a g) :
    GameInv a (Game.guessContains a w g i) := by
  obtain ⟨hml, hmp, hpa, hpb, him, hom, han, hpba, hppb⟩ := hInv
  have hw97 := (hw i hi).1
  unfold Game.guessContains
  split
  · next hcont =>
    obtain ⟨m, hm5, hmw⟩ := (containsChar_iff a (w.nth i)).mp hcont
    have hneg_eq : ∀ k, ((Function.update g.chars (w.nth i - 97)
        ((g.chars (w.nth i - 97)).set_in)) k).neg = (g.chars k).neg := by
      intro k
      rw [Function.update_apply]
      split
      · next he => subst he; rfl
      · rfl
    refine ⟨hml, hmp, hpa, hpb, ?_, ?_, ?_, ?_, ?_⟩
    · intro k hk
      have hk0 : ((Function.update g.chars (w.nth i - 97)
          ((g.chars (w.nth i - 97)).set_in)) k).pos.get 7 = true := hk
      rw [Function.update_apply] at hk0
      by_cases he : k = w.nth i - 97
      · exact ⟨m, hm5, by omega⟩
      · rw [if_neg he] at hk0
        exact him k hk0
    · intro k hk j hj
      have hk0 : ((Function.update g.chars (w.nth i - 97)
          ((g.chars (w.nth i - 97)).set_in)) k).neg.get 7 = true := hk
      rw [hneg_eq k] at hk0
      exact hom k hk0 j hj
    · intro j hj
      show ((Function.update g.chars (w.nth i - 97)
          ((g.chars (w.nth i - 97)).set_in)) (a.nth j - 97)).neg.get j = false
      rw [hneg_eq (a.nth j - 97)]
      exact han j hj
    · intro k j hj hk
      have hk0 : ((Function.update g.chars (w.nth i - 97)
          ((g.chars (w.nth i - 97)).set_in)) k).pos.get j = true := hk
      rw [Function.update_apply] at hk0
      by_cases he : k = w.nth i - 97
      · rw [if_pos he] at hk0
        have hk2 : ((g.chars (w.nth i - 97)).pos.set 7).get j = true := hk0
        rw [get_set_ne _ (by omega)] at hk2
        exact hpba k j hj (by rw [he]; exact hk2)
      · rw [if_neg he] at hk0
        exact hpba k j hj hk0
    · intro j hj c hc
      have hold := hppb j hj c hc
      show ((Function.update g.chars (w.nth i - 97)
          ((g.chars (w.nth i - 97)).set_in)) (c - 97)).pos.get j = true
      rw [Function.update_apply]
      by_cases he2 : c - 97 = w.nth i - 97
      · rw [if_pos he2]
        rw [he2] at hold
        exact get_set_mono hold
      · rw [if_neg he2]
        exact hold
  · next hcont =>
    have hnc : ∀ j < 5, a.nth j ≠ w.nth i := by
      intro j hj he
      exact hcont ((containsChar_iff a (w.nth i)).mpr ⟨j, hj, he⟩)
    have hpos_eq : ∀ k, ((Function.update g.chars (w.nth i - 97)
        ((g.chars (w.nth i - 97)).set_out)) k).pos = (g.chars k).pos := by
      intro k
      rw [Function.update_apply]
      split
      · next he => subst he; rfl
      · rfl
    refine ⟨hml, hmp, hpa, hpb, ?_, ?_, ?_, ?_, ?_⟩
    · intro k hk
      have hk0 : ((Function.update g.chars (w.nth i - 97)
          ((g.chars (w.nth i - 97)).set_out)) k).pos.get 7 = true := hk
      rw [hpos_eq k] at hk0
      exact him k hk0
    · intro k hk j hj
      have hk0 : ((Function.update g.chars (w.nth i - 97)
          ((g.chars (w.nth i - 97)).set_out)) k).neg.get 7 = true := hk
      rw [Function.update_apply] at hk0
      by_cases he : k = w.nth i - 97
      · intro hcon
        exact hnc j hj (by omega)
      · rw [if_neg he] at hk0
        exact hom k hk0 j hj
    · intro j hj
      show ((Function.update g.chars (w.nth i - 97)
          ((g.chars (w.nth i - 97)).set_out)) (a.nth j - 97)).neg.get j = false
      rw [Function.update_apply]
      by_cases he : a.nth j - 97 = w.nth i - 97
      · rw [if_pos he]
        show ((g.chars (w.nth i - 97)).neg.set 7).get j = false
        rw [get_set_ne _ (by omega), ← he]
        exact han j hj
      · rw [if_neg he]
        exact han j hj
    · intro k j hj hk
      have hk0 : ((Function.update g.chars (w.nth i - 97)
          ((g.chars (w.nth i - 97)).set_out)) k).pos.get j = true := hk
      rw [hpos_eq k] at hk0
      exact hpba k j hj hk0
    · intro j hj c hc
      have hold := hppb j hj c hc
      show ((Function.update g.chars (w.nth i - 97)
          ((g.chars (w.nth i - 97)).set_out)) (c - 97)).pos.get j = true
      rw [hpos_eq (c - 97)]
      exact hold

theorem inv_deduceStep {a : Word} {g : Game} (hInv : GameInv a g) (idx : Nat) :
    GameInv a { g with chars := Function.update g.chars idx ((g.chars idx).deduce) } := by
  obtain ⟨hml, hmp, hpa, hpb, him, hom, han, hpba, hppb⟩ := hInv
  have hneg_eq : ∀ k, ((Function.update g.chars idx ((g.chars idx).deduce)) k).neg
      = (g.chars k).neg := by
    intro k
    rw [Function.update_apply]
    split
    · next he => subst he; rw [deduce_neg]
    · rfl
  refine ⟨hml, hmp, hpa, hpb, ?_, ?_, ?_, ?_, ?_⟩
  · intro k hk
    have hk0 : ((Function.update g.chars idx ((g.chars idx).deduce)) k).pos.get 7
        = true := hk
    rw [Function.update_apply] at hk0
    by_cases he : k = idx
    · rw [if_pos he] at hk0
      have hdi : ((g.chars idx).deduce).is_in = true := hk0
      rw [deduce_is_in] at hdi
      exact him k (by rw [he]; exact hdi)
    · rw [if_neg he] at hk0
      exact him k hk0
  · intro k hk j hj
    have hk0 : ((Function.update g.chars idx ((g.chars idx).deduce)) k).neg.get 7
        = true := hk
    rw [hneg_eq k] at hk0
    exact hom k hk0 j hj
  · intro j hj
    show ((Function.update g.chars idx ((g.chars idx).deduce)) (a.nth j - 97)).neg.get j
      = false
    rw [hneg_eq (a.nth j - 97)]
    exact han j hj
  · intro k j hj hk
    have hk0 : ((Function.update g.chars idx ((g.chars idx).deduce)) k).pos.get j
        = true := hk
    rw [Function.update_apply] at hk0
    by_cases he : k = idx
    · rw [if_pos he] at hk0
      rcases deduce_pos_get hk0 with hL | hR
      · exact hpba k j hj (by rw [he]; exact hL)
      · obtain ⟨hin, hcnt, hj5, hnegj⟩ := hR
        obtain ⟨m, hm5, hma⟩ := him idx hin
        have hmn : (g.chars idx).neg.get m = false := by
          have hx := han m hm5
          have hidx2 : a.nth m - 97 = idx := by omega
          rw [hidx2] at hx
          exact hx
        have hmj := unique_nonneg hcnt hm5 hj5 hmn hnegj
        rw [he, ← hmj]
        exact hma
    · rw [if_neg he] at hk0
      exact hpba k j hj hk0
  · intro j hj c hc
    have hold := hppb j hj c hc
    show ((Function.update g.chars idx ((g.chars idx).deduce)) (c - 97)).pos.get j = true
    rw [Function.update_apply]
    by_cases he : c - 97 = idx
    · rw [if_pos he]
      rw [he] at hold
      exact deduce_pos_mono hold
    · rw [if_neg he]
      exact hold

theorem inv_guess {a w : Word} {g : Game} (ha : a.valid) (hw : w.valid)
    (hInv : GameInv a g) : GameInv a (g.guess a w) := by
  unfold Game.guess
  apply foldl_preserve
  · intro x b hb hx
    exact inv_deduceStep hx (w.nth b - 97)
  · apply foldl_preserve
    · intro x b hb hx
      have hb5 := List.mem_range.mp hb
      unfold Game.guessStep
      exact inv_guessContains hw hb5 (inv_guessGreen ha hw hb5 hx)
    · exact ⟨hInv.mask_lt, hInv.mask_pos, hInv.pos_ans, hInv.packed_byte, hInv.in_mem,
        hInv.out_not_mem, hInv.ans_not_neg, hInv.posbit_ans, hInv.pos_posbit⟩

/-- The states reachable from the empty state by incorporating feedback for
one fixed answer `a` and arbitrary (valid) guessed words. -/
inductive Reachable (a : Word) : Game → Prop where
  | base : Reachable a Game.new
  | step {g : Game} (w : Word) (hw : w.valid) (hr : Reachable a g) :
      Reachable a (g.guess a w)

theorem inv_of_reachable {a : Word} (ha : a.valid) {g : Game} (hr : Reachable a g) :
    GameInv a g := by
  induction hr with
  | base => exact inv_new a
  | step w hw hr ih => exact inv_guess ha hw ih

theorem WF_of_inv {a : Word} {g : Game} (hInv : GameInv a g) : g.WF := by
  refine ⟨hInv.mask_lt, hInv.mask_pos, fun i hi c hc => ?_⟩
  rw [hInv.packed_byte i hi, hc]
  simp [hInv.pos_ans i hi c hc]

/-- The fixed answer always passes the feasibility test in any state built
from feedback against it. -/
theorem is_possible_answer_of_inv {a : Word} (ha : a.valid) {g : Game}
    (hInv : GameInv a g) : g.is_possible a = true := by
  rw [is_possible_eq_scalar ha (WF_of_inv hInv), is_possible_scalar_eq,
    Bool.and_eq_true, Bool.and_eq_true]
  refine ⟨?_, ?_, ?_⟩
  · rw [green_scalar_iff]
    intro i hi c hc
    exact (hInv.pos_ans i hi c hc).symm
  · rw [no_bad_scalar_iff]
    intro i hi
    have h97 := (ha i hi).1
    have h1 : (g.chars (a.nth i - 97)).neg.get i = false := hInv.ans_not_neg i hi
    have h2 : (g.chars (a.nth i - 97)).is_out = false := by
      rcases hio : (g.chars (a.nth i - 97)).is_out with _ | _
      · rfl
      · exact absurd (show a.nth i = 97 + (a.nth i - 97) by omega)
          (hInv.out_not_mem (a.nth i - 97) hio i hi)
    rw [CharInfo.is_out, BitField.get_eq_testBit] at h2
    rw [BitField.get_eq_testBit] at h1
    exact ⟨h2, h1⟩
  · rw [hasYellows_iff]
    intro k hk hin
    exact hInv.in_mem k hin

/-- C5: the true answer is never filtered out — in every state reachable from
the empty state by incorporating feedback for the same fixed (valid) answer
`a` against arbitrary valid guesses, `is_possible` accepts `a`. -/
theorem claim_C5 (a : Word) (g : Game) (ha : a.valid) (hr : Reachable a g) :
    g.is_possible a = true :=
  is_possible_answer_of_inv ha (inv_of_reachable ha hr)

/-- Witness for C5 after one incorporate call (answer "crane", guess "trace"). -/
theorem claim_C5_witness : (Game.new.guess crane trace).is_possible crane = true :=
  claim_C5 crane (Game.new.guess crane trace) (by decide)
    (Reachable.step trace (by decide) Reachable.base)

/-- Counterexample to C6 as stated: incorporating guess "trace" against answer
"crane" does NOT exclude `r` at position 1 — `r` matches at position 1 in both
words, so it is confirmed there; the conjunction the claim asserts is false. -/
theorem claim_C6_cex :
    ¬(((Game.new.guess crane trace).chars 19).neg.get 0 = true ∧
      ((Game.new.guess crane trace).chars 19).is_out = true ∧
      ((Game.new.guess crane trace).chars 17).neg.get 1 = true ∧
      ((Game.new.guess crane trace).chars 17).is_in = true ∧
      ((Game.new.guess crane trace).chars 0).pos.get 2 = true ∧
      ((Game.new.guess crane trace).chars 2).neg.get 3 = true ∧
      ((Game.new.guess crane trace).chars 2).is_in = true ∧
      ((Game.new.guess crane trace).chars 4).pos.get 4 = true) := by
  decide

/-- C6 amended: incorporating answer "crane", guess "trace" into the empty
state yields exactly: `t` excluded at position 0 and known absent; `r`
CONFIRMED at position 1 (green — both words have `r` there) and known present;
`a` confirmed at position 2 and known present; `c` excluded at position 3 and
known present; `e` confirmed at position 4 and known present; all other
letters untouched; positions 1, 2, 4 recorded in the denormalized array and
the turn counter incremented. -/
theorem claim_C6_amended :
    ((Game.new.guess crane trace).chars 19).neg.get 0 = true ∧
    ((Game.new.guess crane trace).chars 19).is_out = true ∧
    ((Game.new.guess crane trace).chars 19).is_in = false ∧
    ((Game.new.guess crane trace).chars 17).pos.get 1 = true ∧
    ((Game.new.guess crane trace).chars 17).neg.get 1 = false ∧
    ((Game.new.guess crane trace).chars 17).is_in = true ∧
    ((Game.new.guess crane trace).chars 0).pos.get 2 = true ∧
    ((Game.new.guess crane trace).chars 0).is_in = true ∧
    ((Game.new.guess crane trace).chars 2).neg.get 3 = true ∧
    ((Game.new.guess crane trace).chars 2).is_in = true ∧
    ((Game.new.guess crane trace).chars 2).is_out = false ∧
    ((Game.new.guess crane trace).chars 4).pos.get 4 = true ∧
    ((Game.new.guess crane trace).chars 4).is_in = true ∧
    (Game.new.guess crane trace).positions 0 = none ∧
    (Game.new.guess crane trace).positions 1 = some 114 ∧
    (Game.new.guess crane trace).positions 2 = some 97 ∧
    (Game.new.guess crane trace).positions 3 = none ∧
    (Game.new.guess crane trace).positions 4 = some 101 ∧
    (Game.new.guess crane trace).guesses = 1 ∧
    (∀ k < 26, k ∉ ([0, 2, 4, 17, 19] : List Nat) →
      (Game.new.guess crane trace).chars k = CharInfo.UNKNOWN) := by
  decide

/-- Counterexample to C7 as stated: after incorporating guess "baaaa" against
answer "axxxx", the elimination deduction confirms `a` at position 0 in the
per-letter record (`pos` bit 0), but the denormalized `positions` array still
holds `none` there — the two views disagree, in a reachable state. -/
theorem claim_C7_cex :
    Reachable axxxx (Game.new.guess axxxx baaaa) ∧
    ((Game.new.guess axxxx baaaa).chars 0).pos.get 0 = true ∧
    (Game.new.guess axxxx baaaa).positions 0 = none :=
  ⟨Reachable.step baaaa (by decide) Reachable.base, by decide, by decide⟩

/-- C7 amended: only the forward direction of the consistency holds — in every
reachable state, the mask bit of position `i` is set iff the `positions` array
holds a letter there, and a letter `c` recorded in the array has its packed
byte equal to `c` and position `i` in `c`'s confirmed set.  (The converse
fails: the elimination deduction writes only the per-letter record.) -/
theorem claim_C7_amended (a : Word) (g : Game) (ha : a.valid) (hr : Reachable a g) :
    ∀ i < 5, (g.position_mask.testBit i = (g.positions i).isSome) ∧
      ∀ c, g.positions i = some c →
        byteAt g.position_packed i = c ∧ (g.chars (c - 97)).pos.get i = true := by
  have hInv := inv_of_reachable ha hr
  intro i hi
  refine ⟨hInv.mask_pos i hi, fun c hc => ⟨?_, hInv.pos_posbit i hi c hc⟩⟩
  rw [hInv.packed_byte i hi, hc]
  simp [hInv.pos_ans i hi c hc]

/-- Witness for the amended C7 after one incorporate call, at position 1
(where "trace" against "crane" confirms `r` = byte 114). -/
theorem claim_C7_witness :
    ((Game.new.guess crane trace).position_mask.testBit 1
      = ((Game.new.guess crane trace).positions 1).isSome) ∧
    (byteAt (Game.new.guess crane trace).position_packed 1 = 114 ∧
      ((Game.new.guess crane trace).chars (114 - 97)).pos.get 1 = true) :=
  ⟨(claim_C7_amended crane (Game.new.guess crane trace) (by decide)
      (Reachable.step trace (by decide) Reachable.base) 1 (by decide)).1,
    (claim_C7_amended crane (Game.new.guess crane trace) (by decide)
      (Reachable.step trace (by decide) Reachable.base) 1 (by decide)).2 114 (by decide)⟩

/-- C8: in every state reachable with one fixed valid answer, no letter is
both known present and known absent, and no position is both confirmed and
excluded for the same letter (so the debug assertions in `set_in` / `set_out`
describe true invariants of such states). -/
theorem claim_C8 (a : Word) (g : Game) (ha : a.valid) (hr : Reachable a g) :
    ∀ k < 26, ¬((g.chars k).is_in = true ∧ (g.chars k).is_out = true) ∧
      ∀ i < 5, ¬((g.chars k).pos.get i = true ∧ (g.chars k).neg.get i = true) := by
  have hInv := inv_of_reachable ha hr
  intro k hk
  constructor
  · rintro ⟨hin, hout⟩
    obtain ⟨i, hi, he⟩ := hInv.in_mem k hin
    exact hInv.out_not_mem k hout i hi he
  · intro i hi
    rintro ⟨hposb, hnegb⟩
    have he := hInv.posbit_ans k i hi hposb
    have hk97 : a.nth i - 97 = k := by omega
    have hn := hInv.ans_not_neg i hi
    rw [hk97] at hn
    rw [hn] at hnegb
    exact absurd hnegb (by simp)

/-- Witness for C8 after one incorporate call, at the letter `t` (index 19)
and position 0. -/
theorem claim_C8_witness :
    ¬(((Game.new.guess crane trace).chars 19).is_in = true ∧
      ((Game.new.guess crane trace).chars 19).is_out = true) ∧
    ¬(((Game.new.guess crane trace).chars 19).pos.get 0 = true ∧
      ((Game.new.guess crane trace).chars 19).neg.get 0 = true) :=
  ⟨(claim_C8 crane (Game.new.guess crane trace) (by decide)
      (Reachable.step trace (by decide) Reachable.base) 19 (by decide)).1,
    (claim_C8 crane (Game.new.guess crane trace) (by decide)
      (Reachable.step trace (by decide) Reachable.base) 19 (by decide)).2 0 (by decide)⟩

/-- Counterexample to C9 as stated: self-consistency fails for arbitrary
states.  In the state built from answer "zzzzz" (where `z` is known present at
every position), incorporating "aaaaa" against itself still leaves "aaaaa"
impossible: `z` remains known present but "aaaaa" does not contain it, and the
packed green byte becomes `122 ||| 97 ≠ 97`. -/
theorem claim_C9_cex :
    ((Game.new.guess zzzzz zzzzz).guess aaaaa aaaaa).is_possible aaaaa = false := by
  decide

/-- C9 amended: self-consistency holds for every state consistent with `w` as
the answer — for every valid `w` and every state reachable from the empty
state by incorporate calls with answer `w` (in particular the empty state),
after incorporating the full-match feedback of guessing `w` itself, `w` is
still possible. -/
theorem claim_C9_amended (w : Word) (s : Game) (hw : w.valid) (hr : Reachable w s) :
    (s.guess w w).is_possible w = true :=
  is_possible_answer_of_inv hw (inv_of_reachable hw (Reachable.step w hw hr))

/-- Witness for the amended C9 at the empty state with "crane". -/
theorem claim_C9_witness : (Game.new.guess crane crane).is_possible crane = true :=
  claim_C9_amended crane Game.new (by decide) Reachable.base

/-! ### The minimax search -/

theorem min_by_key_eq_argmin {α : Type} (l : List α) (f : α → Nat) :
    min_by_key l f = l.argmin f := by
  unfold min_by_key List.argmin
  congr 1
  funext acc x
  cases acc <;> rfl

theorem best_guess_eq_argmin (g : Game) (aw gw : List Word)
    (h : (aw.filter (fun w => g.is_possible w)).length ≠ 1) :
    best_guess g aw gw
      = (gw.filter (fun w => g.is_revealing w)).argmin
          (score g (aw.filter (fun w => g.is_possible w))) := by
  show (if (aw.filter (fun w => g.is_possible w)).length = 1
      then (aw.filter (fun w => g.is_possible w))[0]?
      else min_by_key (gw.filter (fun w => g.is_revealing w))
        (score g (aw.filter (fun w => g.is_possible w)))) = _
  rw [if_neg h, min_by_key_eq_argmin]

/-- C1: when the possible set does not have exactly one element, `best_guess`
returns `some m` exactly when `m` is a revealing guess of minimal worst-case
score, and the first such guess in the guess list's order (ties kept by the
earlier element, as in rayon's order-preserving `min_by_key` reduction). -/
theorem claim_C1 (g : Game) (answer_words guess_words : List Word) (m : Word)
    (h : (answer_words.filter (fun w => g.is_possible w)).length ≠ 1) :
    best_guess g answer_words guess_words = some m ↔
      (m ∈ guess_words.filter (fun w => g.is_revealing w) ∧
       (∀ c ∈ guess_words.filter (fun w => g.is_revealing w),
         score g (answer_words.filter (fun w => g.is_possible w)) m ≤
           score g (answer_words.filter (fun w => g.is_possible w)) c) ∧
       (∀ c ∈ guess_words.filter (fun w => g.is_revealing w),
         score g (answer_words.filter (fun w => g.is_possible w)) c ≤
           score g (answer_words.filter (fun w => g.is_possible w)) m →
           (guess_words.filter (fun w => g.is_revealing w)).indexOf m ≤
             (guess_words.filter (fun w => g.is_revealing w)).indexOf c)) := by
  rw [best_guess_eq_argmin g answer_words guess_words h]
  exact List.argmin_eq_some_iff

def abide : Word := ⟨97, 98, 105, 100, 101⟩

def chase : Word := ⟨99, 104, 97, 115, 101⟩

/-- Witness for C1 on a two-word universe from the empty state. -/
theorem claim_C1_witness :
    best_guess Game.new [abide, chase] [abide, chase] = some abide ↔
      (abide ∈ [abide, chase].filter (fun w => Game.new.is_revealing w) ∧
       (∀ c ∈ [abide, chase].filter (fun w => Game.new.is_revealing w),
         score Game.new ([abide, chase].filter (fun w => Game.new.is_possible w)) abide ≤
           score Game.new ([abide, chase].filter (fun w => Game.new.is_possible w)) c) ∧
       (∀ c ∈ [abide, chase].filter (fun w => Game.new.is_revealing w),
         score Game.new ([abide, chase].filter (fun w => Game.new.is_possible w)) c ≤
           score Game.new ([abide, chase].filter (fun w => Game.new.is_possible w)) abide →
           ([abide, chase].filter (fun w => Game.new.is_revealing w)).indexOf abide ≤
             ([abide, chase].filter (fun w => Game.new.is_revealing w)).indexOf c)) :=
  claim_C1 Game.new [abide, chase] [abide, chase] abide (by decide)

/-- C10: if exactly one word of the answer set is still possible, `best_guess`
returns it immediately, for any guess set — in particular the `is_revealing`
filter is never applied to it. -/
theorem claim_C10 (g : Game) (answer_words guess_words : List Word) (w0 : Word)
    (h : answer_words.filter (fun w => g.is_possible w) = [w0]) :
    best_guess g answer_words guess_words = some w0 := by
  show (if (answer_words.filter (fun w => g.is_possible w)).length = 1
      then (answer_words.filter (fun w => g.is_possible w))[0]?
      else min_by_key (guess_words.filter (fun w => g.is_revealing w))
        (score g (answer_words.filter (fun w => g.is_possible w)))) = some w0
  rw [h]
  rfl

/-- Witness for C10: after the answer "crane" is fully confirmed, "crane" is
the single possible word; it is returned even though it is not revealing
(`is_revealing` is false for it in that state). -/
theorem claim_C10_witness :
    best_guess (Game.new.guess crane crane) [crane] [crane] = some crane :=
  claim_C10 (Game.new.guess crane crane) [crane] [crane] crane (by decide)
